import Mathlib

/-!
Shallow embedding of the discord-realtime-voice2text-bot core pipeline:
the transcript Aggregator, the audio Segmenter, the Receiver's pending
stream buffering, the SSRC resolver, and the segment filter, together
with theorems settling the specification's claims about them.

Go strings are modelled as lists of runes (code points, as `Nat`);
`byteLen` is the UTF-8 byte length Go's `len(s)` computes, while
`List.length` is the rune count `len([]rune(s))` computes.  Timers are
modelled by identity tokens and generation counters: arming a timer
records the token/generation it was armed for, `Stop` invalidates it by
bumping the generation (or dropping the state it pointed to), and a
fire event carrying a token/generation that no longer matches the
current state is a no-op, exactly as the Go code's pointer-equality
guards behave.
-/

namespace VoiceBot

/-- A Go string viewed as its rune (code-point) sequence. -/

abbrev GoStr := List Nat

/-- UTF-8 encoded width of a code point, as Go encodes strings. -/

def utf8Width (c : Nat) : Nat :=
  if c < 0x80 then 1 else if c < 0x800 then 2 else if c < 0x10000 then 3 else 4

/-- Go's `len(s)`: the byte length of the UTF-8 encoding. -/

def byteLen (s : GoStr) : Nat := (s.map utf8Width).sum

/-- The whitespace predicate `unicode.IsSpace` used by `strings.TrimSpace`,
restricted to Latin-1 (the Zs category above U+00A0 is irrelevant to the claims). -/

def goIsSpace (c : Nat) : Bool :=
  c = 9 || c = 10 || c = 11 || c = 12 || c = 13 || c = 32 || c = 0x85 || c = 0xA0

/-- `strings.TrimSpace`: drop leading and trailing whitespace runes. -/

def trimSpace (s : GoStr) : GoStr :=
  ((s.dropWhile goIsSpace).reverse.dropWhile goIsSpace).reverse

/-- `maxDiscordMessageLength` from `internal/transcript/aggregator.go`. -/

def maxDiscordMessageLength : Nat := 2000

/-- The chunking loop of `splitLine`: repeatedly cut the first
`maxDiscordMessageLength` runes off the line. -/

def chunkRunes (l : GoStr) : List GoStr :=
  match l with
  | [] => []
  | c :: rest =>
    (c :: rest).take maxDiscordMessageLength ::
      chunkRunes ((c :: rest).drop maxDiscordMessageLength)
termination_by l.length
decreasing_by
  simp only [maxDiscordMessageLength, List.length_drop, List.length_cons]
  omega

/-- `splitLine` from `aggregator.go`: a line at most the maximum length is
returned whole, otherwise it is cut into maximum-length rune chunks. -/

def splitLine (line : GoStr) : List GoStr :=
  if line.length ≤ maxDiscordMessageLength then [line] else chunkRunes line

/-- Association lists standing in for Go maps (first binding wins). -/

def alget {κ α : Type} [DecidableEq κ] (k : κ) : List (κ × α) → Option α
  | [] => none
  | (k', v) :: rest => if k = k' then some v else alget k rest

/-- Insert or replace the binding of `k`. -/

def alset {κ α : Type} [DecidableEq κ] (k : κ) (v : α) : List (κ × α) → List (κ × α)
  | [] => [(k, v)]
  | (k', v') :: rest => if k = k' then (k, v) :: rest else (k', v') :: alset k v rest

/-- Delete every binding of `k` (Go's `delete` on a unique-keyed map). -/

def aldel {κ α : Type} [DecidableEq κ] (k : κ) (m : List (κ × α)) : List (κ × α) :=
  m.filter (fun p => decide (p.1 ≠ k))

/-! ## Aggregator (`internal/transcript/aggregator.go`)

`messageState` carries the sink-assigned message id, the merged lines and
the serialized content; the `token` field models the Go pointer identity
of the `messageState` allocation, which the window timer compares against
`a.current` when it fires. -/

structure MsgState where
  id : String
  lines : List GoStr
  content : GoStr
  token : Nat
deriving DecidableEq, Repr

/-- Aggregator state: the open message (if any) and an allocation counter
producing fresh tokens for newly started messages. -/

structure AggState where
  current : Option MsgState
  nextAlloc : Nat
deriving DecidableEq, Repr

/-- The message sink (`Poster`), as a response oracle: `send` returns the
new message id or `none` on failure, `edit` returns success. -/

structure Sink where
  send : GoStr → Option String
  edit : String → GoStr → Bool

/-- Observable sink calls issued by the aggregator, with their outcome. -/

inductive SinkEvent where
  | sent (msgId : String) (content : GoStr)
  | sendFailed (content : GoStr)
  | edited (msgId : String) (content : GoStr)
  | editFailed (msgId : String) (content : GoStr)
deriving DecidableEq, Repr

/-- Whether an event is a send call (successful or not). -/

def SinkEvent.isSend : SinkEvent → Bool
  | .sent _ _ => true
  | .sendFailed _ => true
  | _ => false

/-- Whether an event is an edit call (successful or not). -/

def SinkEvent.isEdit : SinkEvent → Bool
  | .edited _ _ => true
  | .editFailed _ _ => true
  | _ => false

/-- The content a sink call carried. -/

def SinkEvent.content : SinkEvent → GoStr
  | .sent _ c => c
  | .sendFailed c => c
  | .edited _ c => c
  | .editFailed _ c => c

/-- `wouldExceedLimitLocked`: joining the chunk onto the current content
(byte lengths, with a newline byte when the content is non-empty) would
push past the maximum message length. -/

def wouldExceedLimit (cur : Option MsgState) (line : GoStr) : Bool :=
  match cur with
  | none => byteLen line > maxDiscordMessageLength
  | some m =>
    byteLen m.content + (byteLen line + (if m.content = [] then 0 else 1)) >
      maxDiscordMessageLength

/-- The newline join computed by `appendToCurrentLocked` (rune 10 = `\n`). -/

def joinContent (content chunk : GoStr) : GoStr :=
  if content = [] then chunk else content ++ 10 :: chunk

/-- `startNewMessageLocked`: send the chunk; on success install the new
message state (with a fresh token) and arm its timer; on failure leave the
state untouched and report the error. -/

def startNewMessage (sink : Sink) (st : AggState) (chunk : GoStr) :
    AggState × List SinkEvent × Bool :=
  match sink.send chunk with
  | none => (st, [.sendFailed chunk], true)
  | some msgId =>
    (⟨some ⟨msgId, [chunk], chunk, st.nextAlloc⟩, st.nextAlloc + 1⟩,
      [.sent msgId chunk], false)

/-- `appendToCurrentLocked`: edit the open message to the joined content;
only on success update the in-memory lines/content and re-arm the timer. -/

def appendToCurrent (sink : Sink) (st : AggState) (m : MsgState) (chunk : GoStr) :
    AggState × List SinkEvent × Bool :=
  let nc := joinContent m.content chunk
  if sink.edit m.id nc then
    (⟨some { m with lines := m.lines ++ [chunk], content := nc }, st.nextAlloc⟩,
      [.edited m.id nc], false)
  else (st, [.editFailed m.id nc], true)

/-- `finalizeCurrentLocked`: stop the timer and drop the open reference. -/

def finalizeCurrent (st : AggState) : AggState := ⟨none, st.nextAlloc⟩

/-- One iteration of the chunk loop in `AddLine`. -/

def processChunk (sink : Sink) (st : AggState) (chunk : GoStr) :
    AggState × List SinkEvent × Bool :=
  match st.current with
  | none => startNewMessage sink st chunk
  | some m =>
    if wouldExceedLimit (some m) chunk then
      startNewMessage sink (finalizeCurrent st) chunk
    else appendToCurrent sink st m chunk

/-- The chunk loop of `AddLine`, stopping at the first failed sink call. -/

def processChunks (sink : Sink) (st : AggState) : List GoStr → AggState × List SinkEvent × Bool
  | [] => (st, [], false)
  | c :: cs =>
    match processChunk sink st c with
    | (st1, evs1, true) => (st1, evs1, true)
    | (st1, evs1, false) =>
      match processChunks sink st1 cs with
      | (st2, evs2, err) => (st2, evs1 ++ evs2, err)

/-- `AddLine`: trim, drop empty results, then route every chunk of
`splitLine` through the open/append decision in order. -/

def addLine (sink : Sink) (st : AggState) (line : GoStr) :
    AggState × List SinkEvent × Bool :=
  let l := trimSpace line
  if l = [] then (st, [], false) else processChunks sink st (splitLine l)

/-- The window timer armed for token `tok` fires: clear the open reference
only if the open message is still the one the timer was armed for. -/

def fireWindowTimer (st : AggState) (tok : Nat) : AggState :=
  match st.current with
  | some m => if m.token = tok then ⟨none, st.nextAlloc⟩ else st
  | none => st

/-- The id/content of the last successful sink call in a trace. -/

def lastSuccess (evs : List SinkEvent) : Option (String × GoStr) :=
  evs.foldl
    (fun acc e =>
      match e with
      | .sent msgId c => some (msgId, c)
      | .edited msgId c => some (msgId, c)
      | _ => acc)
    none

/-- The aggregator's recorded content agrees with what was last sent or
successfully edited. -/

def contentInv (hist : List SinkEvent) (st : AggState) : Prop :=
  ∀ m, st.current = some m → lastSuccess hist = some (m.id, m.content)

/-! ## Segmenter (`internal/audio` segmenter source)

`userBuffer` carries the accumulated PCM samples; `token` models the Go
pointer identity of the `userBuffer` allocation (compared by the silence
timer against the map entry when it fires), and `timerGen` models which
arming of the buffer's timer is still live: `resetTimerLocked` stops the
previous timer, which bumps the generation, and a fire event carrying a
stale generation or a stale buffer token is a no-op. -/

structure UserBuffer where
  samples : List Int
  token : Nat
  timerGen : Nat
deriving DecidableEq, Repr

/-- Segmenter state: per-user buffers and an allocation counter producing
fresh buffer tokens. -/

structure SegState where
  buffers : List (String × UserBuffer)
  nextAlloc : Nat
deriving DecidableEq, Repr

/-- `Segmenter.AddSamples`: ignore empty sample slices; otherwise append
to the user's buffer (creating it if absent) and re-arm the silence
timer, cancelling the previous one. -/

def addSamples (st : SegState) (uid : String) (xs : List Int) : SegState :=
  if xs = [] then st
  else
    match alget uid st.buffers with
    | none => ⟨alset uid ⟨xs, st.nextAlloc, 0⟩ st.buffers, st.nextAlloc + 1⟩
    | some buf =>
      ⟨alset uid ⟨buf.samples ++ xs, buf.token, buf.timerGen + 1⟩ st.buffers, st.nextAlloc⟩

/-- `flushLocked`: emit nothing for an empty buffer, otherwise emit a copy
of the samples and clear the buffer in place. -/

def flushBuffer (buf : UserBuffer) : UserBuffer × Option (List Int) :=
  if buf.samples = [] then (buf, none)
  else (⟨[], buf.token, buf.timerGen⟩, some buf.samples)

/-- The silence timer armed for buffer `tok` at generation `gen` fires:
if the user's current buffer is no longer the one the timer was armed for
(or the timer was stopped by a re-arm, or the entry is gone) nothing
happens, otherwise the buffer is flushed. -/

def fireSilenceTimer (st : SegState) (uid : String) (tok gen : Nat) :
    SegState × Option (List Int) :=
  match alget uid st.buffers with
  | none => (st, none)
  | some buf =>
    if buf.token = tok ∧ buf.timerGen = gen then
      let fl := flushBuffer buf
      (⟨alset uid fl.1 st.buffers, st.nextAlloc⟩, fl.2)
    else (st, none)

/-- A sequence of `AddSamples` calls for one user. -/

def addSamplesFold (st : SegState) (uid : String) (xss : List (List Int)) : SegState :=
  xss.foldl (fun s xs => addSamples s uid xs) st

/-! ## Pending-stream buffering (`Receiver` for unresolved SSRCs)

State of `Receiver.pending`, keyed by SSRC: the ordered frames buffered
while the source id has no identity binding, the running sample total,
and whether an `awaitMapping` wait has already been started. -/

structure PendingStream where
  frames : List (List Int)
  totalSamples : Nat
  waiting : Bool
deriving DecidableEq, Repr

/-- `maxPendingSamples = SampleRate * Channels * (maxPendingDuration / second)`. -/

def maxPendingSamples : Nat := 48000 * 1 * 30

/-- The eviction loop of `addPendingFrame`: while the total exceeds the
cap and frames remain, drop the oldest frame. -/

def evictOldest (frames : List (List Int)) (total : Nat) : List (List Int) × Nat :=
  match frames with
  | [] => ([], total)
  | f :: rest =>
    if maxPendingSamples < total then evictOldest rest (total - f.length)
    else (f :: rest, total)

/-- The pending stream recorded for an SSRC, or a zero value when absent. -/

def getPending (st : List (Nat × PendingStream)) (ssrc : Nat) : PendingStream :=
  (alget ssrc st).getD ⟨[], 0, false⟩

/-- `addPendingFrame`: append the decoded frame, bump the total, evict
oldest-first past the cap, mark the stream waiting, and report whether a
background wait must be started plus the new total and frame count. -/

def addPendingFrame (st : List (Nat × PendingStream)) (ssrc : Nat) (pcm : List Int) :
    List (Nat × PendingStream) × Bool × Nat × Nat :=
  let stream := getPending st ssrc
  let er := evictOldest (stream.frames ++ [pcm]) (stream.totalSamples + pcm.length)
  (alset ssrc ⟨er.1, er.2, true⟩ st, !stream.waiting, er.2, er.1.length)

/-- A whole arrival sequence of unresolved frames for one SSRC. -/

def addPendingFold (st : List (Nat × PendingStream)) (ssrc : Nat)
    (pcms : List (List Int)) : List (Nat × PendingStream) :=
  pcms.foldl (fun s pcm => (addPendingFrame s ssrc pcm).1) st

/-- `drainPending`: remove and return the buffered frames for an SSRC. -/

def drainPending (st : List (Nat × PendingStream)) (ssrc : Nat) :
    List (Nat × PendingStream) × List (List Int) :=
  match alget ssrc st with
  | none => (st, [])
  | some stream => (aldel ssrc st, stream.frames)

/-- `clearPending`: drop the buffered frames for an SSRC (wait timeout). -/

def clearPending (st : List (Nat × PendingStream)) (ssrc : Nat) :
    List (Nat × PendingStream) :=
  aldel ssrc st

/-- The success path of `awaitMapping`: drain the SSRC's pending frames
and replay each one, in order, into the segmenter under the resolved
identity.  Returns the new pending map, the new segmenter state, and the
list of frames that were delivered. -/

def awaitMappingSuccess (pst : List (Nat × PendingStream)) (ssrc : Nat)
    (seg : SegState) (uid : String) :
    List (Nat × PendingStream) × SegState × List (List Int) :=
  let dr := drainPending pst ssrc
  (dr.1, dr.2.foldl (fun s f => addSamples s uid f) seg, dr.2)

/-- The sample total of the stream equals the sum of its frame lengths. -/

def pendingInv (s : PendingStream) : Prop :=
  s.totalSamples = (s.frames.map List.length).sum

/-! ## SSRC resolver (`internal/discordbot/bot.go`)

`mapping` is the authoritative SSRC→user table; `waiters` holds, per
SSRC, the registered one-shot waiter channels (modelled by tokens).
`resolverSet` is `ssrcResolver.set`; `waitRegister`/`waitTimeout` are the
two halves of `ssrcResolver.Wait` (registration under the lock, and the
timeout path that removes the waiter again). -/

structure Resolver where
  mapping : List (Nat × String)
  waiters : List (Nat × List Nat)
deriving DecidableEq, Repr

/-- The wait list registered for an SSRC. -/

def waitersFor (r : Resolver) (ssrc : Nat) : List Nat :=
  (alget ssrc r.waiters).getD []

/-- `ssrcResolver.set`: no-op on an empty user id; otherwise record the
binding, clear the wait list for the SSRC, and deliver the id to every
registered waiter (the returned notification list, one per waiter). -/

def resolverSet (r : Resolver) (ssrc : Nat) (uid : String) :
    Resolver × List (Nat × String) :=
  if uid = "" then (r, [])
  else
    (⟨alset ssrc uid r.mapping, aldel ssrc r.waiters⟩,
      (waitersFor r ssrc).map (fun t => (t, uid)))

/-- `ssrcResolver.Resolve`: non-blocking lookup. -/

def resolverResolve (r : Resolver) (ssrc : Nat) : Option String :=
  alget ssrc r.mapping

/-- The registration half of `ssrcResolver.Wait`: return an existing
binding immediately, otherwise append a fresh waiter token. -/

def waitRegister (r : Resolver) (ssrc tok : Nat) : Resolver × Option String :=
  match alget ssrc r.mapping with
  | some uid => (r, some uid)
  | none => (⟨r.mapping, alset ssrc (waitersFor r ssrc ++ [tok]) r.waiters⟩, none)

/-- The timeout path of `ssrcResolver.Wait`: remove this waiter (first
matching entry) from the wait list, dropping the key when the list
empties, and report not-found. -/

def waitTimeout (r : Resolver) (ssrc tok : Nat) : Resolver × String × Bool :=
  match alget ssrc r.waiters with
  | none => (r, ("", false))
  | some ws =>
    if ws.erase tok = [] then (⟨r.mapping, aldel ssrc r.waiters⟩, ("", false))
    else (⟨r.mapping, alset ssrc (ws.erase tok) r.waiters⟩, ("", false))

/-! ## Segment filtering (`shouldSendSegment` / `consumeSegment`) -/

/-- Sum of absolute sample amplitudes, as `shouldSendSegment` accumulates. -/

def sumAbs (samples : List Int) : Nat := (samples.map Int.natAbs).sum

/-- `time.Duration(len) * time.Second / (SampleRate * Channels)` in
nanoseconds. -/

def segmentDurationNs (n : Nat) : Nat := n * 1000000000 / (48000 * 1)

/-- `shouldSendSegment`: drop empty segments, segments shorter than
`minSegmentDuration` (400ms), and segments whose average absolute
amplitude is below `minAverageAmplitude` (900). -/

def shouldSendSegment (samples : List Int) : Bool :=
  if samples.length = 0 then false
  else if segmentDurationNs samples.length < 400000000 then false
  else 900 ≤ sumAbs samples / samples.length

/-- Externally visible actions of `consumeSegment`. -/

inductive BotEffect where
  | writeWav (samples : List Int)
  | transcribe
  | addLine (line : GoStr)
deriving DecidableEq, Repr

/-- `fmt.Sprintf("%s: 「%s」", displayName, text)`. -/

def formatLine (name text : GoStr) : GoStr :=
  name ++ [58, 32, 0x300C] ++ text ++ [0x300D]

/-- `consumeSegment`, as the sequence of external actions it performs on
the happy path: nothing for an empty or filtered segment; otherwise the
WAV write, the transcription call, and — when transcription succeeds with
non-blank text — the aggregator line. -/

def consumeSegmentEffects (transcribed : Option GoStr) (name : GoStr)
    (samples : List Int) : List BotEffect :=
  if samples = [] then []
  else if shouldSendSegment samples then
    .writeWav samples :: .transcribe ::
      (match transcribed with
      | none => []
      | some text =>
        if trimSpace text = [] then [] else [.addLine (formatLine name (trimSpace text))])
  else []

theorem one_le_utf8Width (c : Nat) : 1 ≤ utf8Width c := by
  unfold utf8Width
  split <;> [skip; split] <;> [simp; skip; split] <;> simp

theorem length_le_byteLen (s : GoStr) : s.length ≤ byteLen s := by
  induction s with
  | nil => simp [byteLen]
  | cons c rest ih =>
    simp only [byteLen, List.map_cons, List.sum_cons, List.length_cons]
    have := one_le_utf8Width c
    simp only [byteLen] at ih
    omega

theorem byteLen_append (a b : GoStr) : byteLen (a ++ b) = byteLen a + byteLen b := by
  simp [byteLen]

theorem alget_alset_self {κ α : Type} [DecidableEq κ] (k : κ) (v : α)
    (m : List (κ × α)) : alget k (alset k v m) = some v := by
  induction m with
  | nil => simp [alget, alset]
  | cons p rest ih =>
    by_cases h : k = p.1
    · simp [alset, alget, ← h]
    · simp only [alset]
      rw [if_neg (by exact fun hc => h hc)]
      simp [alget, h, ih]

theorem alget_alset_ne {κ α : Type} [DecidableEq κ] (k k' : κ) (v : α)
    (m : List (κ × α)) (h : k' ≠ k) : alget k' (alset k v m) = alget k' m := by
  induction m with
  | nil => simp [alget, alset, h]
  | cons p rest ih =>
    by_cases hk : k = p.1
    · simp only [alset, if_pos hk, alget]
      rw [if_neg h, if_neg (fun hc => h (hc.trans hk.symm))]
    · simp only [alset, if_neg hk, alget]
      by_cases hk' : k' = p.1
      · simp [hk']
      · simp [hk', ih]

theorem alget_aldel_self {κ α : Type} [DecidableEq κ] (k : κ)
    (m : List (κ × α)) : alget k (aldel k m) = none := by
  induction m with
  | nil => simp [alget, aldel]
  | cons p rest ih =>
    by_cases h : p.1 = k
    · simpa [aldel, h] using ih
    · simp only [aldel, List.filter_cons]
      rw [if_pos (by simpa using h)]
      simp only [alget]
      rw [if_neg (fun hc => h hc.symm)]
      simpa [aldel] using ih

theorem flatten_ne_nil_of_head (x : List Int) (xss : List (List Int)) (hx : x ≠ []) :
    (x :: xss).flatten ≠ [] := by
  simp only [List.flatten_cons, ne_eq, List.append_eq_nil]
  intro h
  exact hx h.1

/-- Firing the timer that matches the current buffer flushes it. -/
theorem fireSilenceTimer_hit (st : SegState) (uid : String) (buf : UserBuffer)
    (h : alget uid st.buffers = some buf) :
    fireSilenceTimer st uid buf.token buf.timerGen =
      (⟨alset uid (flushBuffer buf).1 st.buffers, st.nextAlloc⟩, (flushBuffer buf).2) := by
  simp [fireSilenceTimer, h]

/-- Firing a timer whose token or generation no longer matches is a no-op. -/
theorem fireSilenceTimer_miss (st : SegState) (uid : String) (buf : UserBuffer)
    (tok gen : Nat) (h : alget uid st.buffers = some buf)
    (hm : ¬(buf.token = tok ∧ buf.timerGen = gen)) :
    fireSilenceTimer st uid tok gen = (st, none) := by
  simp only [fireSilenceTimer, h]
  rw [if_neg hm]

theorem addSamplesFold_existing (uid : String) (xss : List (List Int)) :
    ∀ (st : SegState) (buf : UserBuffer),
      alget uid st.buffers = some buf → (∀ xs ∈ xss, xs ≠ []) →
      alget uid (addSamplesFold st uid xss).buffers =
        some ⟨buf.samples ++ xss.flatten, buf.token, buf.timerGen + xss.length⟩ ∧
      (addSamplesFold st uid xss).nextAlloc = st.nextAlloc := by
  induction xss with
  | nil =>
    intro st buf hbuf _
    simp [addSamplesFold, hbuf]
  | cons x rest ih =>
    intro st buf hbuf hall
    have hx : x ≠ [] := hall x (by simp)
    have hstep : addSamples st uid x =
        ⟨alset uid ⟨buf.samples ++ x, buf.token, buf.timerGen + 1⟩ st.buffers,
          st.nextAlloc⟩ := by
      simp [addSamples, hx, hbuf]
    have hbuf1 : alget uid (addSamples st uid x).buffers =
        some ⟨buf.samples ++ x, buf.token, buf.timerGen + 1⟩ := by
      rw [hstep]
      exact alget_alset_self uid _ st.buffers
    have hrec := ih (addSamples st uid x) ⟨buf.samples ++ x, buf.token, buf.timerGen + 1⟩
      hbuf1 (fun xs hxs => hall xs (List.mem_cons_of_mem _ hxs))
    simp only [addSamplesFold, List.foldl_cons] at hrec ⊢
    refine ⟨?_, ?_⟩
    · rw [hrec.1]
      simp only [Option.some.injEq, UserBuffer.mk.injEq, List.flatten_cons]
      exact ⟨by simp, by simp, by simp only [List.length_cons]; omega⟩
    · rw [hrec.2, hstep]

/-- C2: for one speaker identity, starting with no buffered samples, a
sequence of `AddSamples` calls followed by the (current) silence timer
firing emits exactly one segment equal to the concatenation of all the
appended sample slices in arrival order — and a repeated fire emits
nothing further. -/
theorem c2_segmenter_flush_concat (st : SegState) (uid : String)
    (xss : List (List Int)) (hnone : alget uid st.buffers = none)
    (hne : xss ≠ []) (hall : ∀ xs ∈ xss, xs ≠ []) :
    ∃ buf, alget uid (addSamplesFold st uid xss).buffers = some buf ∧
      buf.samples = xss.flatten ∧
      (fireSilenceTimer (addSamplesFold st uid xss) uid buf.token buf.timerGen).2 =
        some xss.flatten ∧
      (fireSilenceTimer
        (fireSilenceTimer (addSamplesFold st uid xss) uid buf.token buf.timerGen).1
        uid buf.token buf.timerGen).2 = none := by
  obtain ⟨x, rest, hx⟩ : ∃ x rest, xss = x :: rest := by
    cases xss with
    | nil => exact absurd rfl hne
    | cons x rest => exact ⟨x, rest, rfl⟩
  subst hx
  have hxne : x ≠ [] := hall x (by simp)
  have hstep : addSamples st uid x =
      ⟨alset uid ⟨x, st.nextAlloc, 0⟩ st.buffers, st.nextAlloc + 1⟩ := by
    simp [addSamples, hxne, hnone]
  have hbuf1 : alget uid (addSamples st uid x).buffers = some ⟨x, st.nextAlloc, 0⟩ := by
    rw [hstep]
    exact alget_alset_self uid _ st.buffers
  have hfold := addSamplesFold_existing uid rest (addSamples st uid x)
    ⟨x, st.nextAlloc, 0⟩ hbuf1 (fun xs hxs => hall xs (List.mem_cons_of_mem _ hxs))
  have hfoldeq : addSamplesFold st uid (x :: rest) =
      addSamplesFold (addSamples st uid x) uid rest := by
    simp [addSamplesFold]
  have hbufF : alget uid (addSamplesFold st uid (x :: rest)).buffers =
      some ⟨x ++ rest.flatten, st.nextAlloc, 0 + rest.length⟩ := by
    rw [hfoldeq]
    exact hfold.1
  have hflne : x ++ rest.flatten ≠ [] := by
    simp only [ne_eq, List.append_eq_nil]
    intro hcontra
    exact hxne hcontra.1
  have hflush : flushBuffer ⟨x ++ rest.flatten, st.nextAlloc, 0 + rest.length⟩ =
      (⟨[], st.nextAlloc, 0 + rest.length⟩, some (x ++ rest.flatten)) := by
    simp [flushBuffer, hflne]
  refine ⟨⟨x ++ rest.flatten, st.nextAlloc, 0 + rest.length⟩, hbufF, by simp, ?_, ?_⟩
  · rw [fireSilenceTimer_hit _ uid _ hbufF, hflush]
    simp
  · rw [fireSilenceTimer_hit _ uid _ hbufF, hflush]
    dsimp only
    have h2 := fireSilenceTimer_hit
      (⟨alset uid (⟨[], st.nextAlloc, 0 + rest.length⟩ : UserBuffer)
        (addSamplesFold st uid (x :: rest)).buffers,
        (addSamplesFold st uid (x :: rest)).nextAlloc⟩ : SegState) uid
      ⟨[], st.nextAlloc, 0 + rest.length⟩ (alget_alset_self uid _ _)
    dsimp only at h2
    rw [h2]
    simp [flushBuffer]

/-- C7: a silence timer firing for a buffer that is no longer the active
buffer for its identity (stale token or stale generation, or no buffer at
all) emits nothing and leaves the state unchanged; in particular
re-arming the timer via `AddSamples` before the previous timer fires
bumps the generation, so the previous timer can no longer emit a segment. -/
theorem c7_stale_timer_no_flush (st : SegState) (uid : String)
    (buf : UserBuffer) (xs : List Int) (tok gen : Nat) :
    (alget uid st.buffers = none → fireSilenceTimer st uid tok gen = (st, none)) ∧
    (alget uid st.buffers = some buf → buf.token ≠ tok ∨ buf.timerGen ≠ gen →
      fireSilenceTimer st uid tok gen = (st, none)) ∧
    (alget uid st.buffers = some buf → xs ≠ [] →
      fireSilenceTimer (addSamples st uid xs) uid buf.token buf.timerGen =
        (addSamples st uid xs, none)) := by
  refine ⟨?_, ?_, ?_⟩
  · intro h
    simp [fireSilenceTimer, h]
  · intro h hnm
    exact fireSilenceTimer_miss st uid buf tok gen h (by tauto)
  · intro h hne
    have hstep : addSamples st uid xs =
        ⟨alset uid ⟨buf.samples ++ xs, buf.token, buf.timerGen + 1⟩ st.buffers,
          st.nextAlloc⟩ := by
      simp [addSamples, hne, h]
    have hbuf1 : alget uid (addSamples st uid xs).buffers =
        some ⟨buf.samples ++ xs, buf.token, buf.timerGen + 1⟩ := by
      rw [hstep]
      exact alget_alset_self uid _ st.buffers
    exact fireSilenceTimer_miss _ uid _ buf.token buf.timerGen hbuf1 (by simp)

/-- Witness for C2 with two appended slices for one user. -/
theorem c2_witness :
    ∃ buf, alget "u" (addSamplesFold ⟨[], 0⟩ "u" [[1], [2]]).buffers = some buf ∧
      buf.samples = ([[1], [2]] : List (List Int)).flatten ∧
      (fireSilenceTimer (addSamplesFold ⟨[], 0⟩ "u" [[1], [2]]) "u"
        buf.token buf.timerGen).2 = some ([[1], [2]] : List (List Int)).flatten ∧
      (fireSilenceTimer
        (fireSilenceTimer (addSamplesFold ⟨[], 0⟩ "u" [[1], [2]]) "u"
          buf.token buf.timerGen).1 "u" buf.token buf.timerGen).2 = none :=
  c2_segmenter_flush_concat ⟨[], 0⟩ "u" [[1], [2]] rfl (by simp) (by simp)

/-- Witness for C7 at a concrete buffer with a stale token/generation. -/
theorem c7_witness :
    (alget "u" (⟨[("u", ⟨[5], 3, 7⟩)], 4⟩ : SegState).buffers = none →
      fireSilenceTimer ⟨[("u", ⟨[5], 3, 7⟩)], 4⟩ "u" 9 9 =
        (⟨[("u", ⟨[5], 3, 7⟩)], 4⟩, none)) ∧
    (alget "u" (⟨[("u", ⟨[5], 3, 7⟩)], 4⟩ : SegState).buffers = some ⟨[5], 3, 7⟩ →
      (⟨[5], 3, 7⟩ : UserBuffer).token ≠ 9 ∨ (⟨[5], 3, 7⟩ : UserBuffer).timerGen ≠ 9 →
      fireSilenceTimer ⟨[("u", ⟨[5], 3, 7⟩)], 4⟩ "u" 9 9 =
        (⟨[("u", ⟨[5], 3, 7⟩)], 4⟩, none)) ∧
    (alget "u" (⟨[("u", ⟨[5], 3, 7⟩)], 4⟩ : SegState).buffers = some ⟨[5], 3, 7⟩ →
      ([6] : List Int) ≠ [] →
      fireSilenceTimer (addSamples ⟨[("u", ⟨[5], 3, 7⟩)], 4⟩ "u" [6]) "u"
        (⟨[5], 3, 7⟩ : UserBuffer).token (⟨[5], 3, 7⟩ : UserBuffer).timerGen =
        (addSamples ⟨[("u", ⟨[5], 3, 7⟩)], 4⟩ "u" [6], none)) :=
  c7_stale_timer_no_flush ⟨[("u", ⟨[5], 3, 7⟩)], 4⟩ "u" ⟨[5], 3, 7⟩ [6] 9 9

theorem suffix_append_right {α : Type} {a b : List α} (h : a <:+ b) (c : List α) :
    a ++ c <:+ b ++ c := by
  obtain ⟨t, ht⟩ := h
  exact ⟨t, by rw [← ht, List.append_assoc]⟩

theorem evictOldest_spec (frames : List (List Int)) :
    ∀ total, total = (frames.map List.length).sum →
      (evictOldest frames total).2 =
        ((evictOldest frames total).1.map List.length).sum ∧
      (evictOldest frames total).2 ≤ maxPendingSamples ∧
      (evictOldest frames total).1 <:+ frames ∧
      (total ≤ maxPendingSamples → evictOldest frames total = (frames, total)) := by
  induction frames with
  | nil =>
    intro total h
    simp only [List.map_nil, List.sum_nil] at h
    subst h
    exact ⟨rfl, by simp [evictOldest, maxPendingSamples], List.nil_suffix, fun _ => rfl⟩
  | cons f rest ih =>
    intro total h
    by_cases hc : maxPendingSamples < total
    · rw [show evictOldest (f :: rest) total = evictOldest rest (total - f.length) by
        rw [evictOldest, if_pos hc]]
      have h' : total - f.length = (rest.map List.length).sum := by
        simp only [List.map_cons, List.sum_cons] at h
        omega
      obtain ⟨h1, h2, h3, _⟩ := ih (total - f.length) h'
      exact ⟨h1, h2, h3.trans (List.suffix_cons f rest),
        fun hle => absurd hc (not_lt.mpr hle)⟩
    · rw [show evictOldest (f :: rest) total = (f :: rest, total) by
        rw [evictOldest, if_neg hc]]
      exact ⟨h, not_lt.mp hc, List.suffix_refl _, fun _ => rfl⟩

/-- C8: after every insertion via `addPendingFrame`, the stream's sample
total equals the sum of its frame lengths and stays at or under the cap;
frames are evicted strictly oldest-first (the surviving list is a suffix
of the arrival sequence), and nothing is evicted when the insertion fits
within the cap. -/
theorem c8_pending_cap (st : List (Nat × PendingStream)) (ssrc : Nat) (pcm : List Int)
    (hinv : pendingInv (getPending st ssrc)) :
    ∃ fr tot,
      (addPendingFrame st ssrc pcm).1 = alset ssrc ⟨fr, tot, true⟩ st ∧
      getPending (addPendingFrame st ssrc pcm).1 ssrc = ⟨fr, tot, true⟩ ∧
      tot = (fr.map List.length).sum ∧
      tot ≤ maxPendingSamples ∧
      fr <:+ (getPending st ssrc).frames ++ [pcm] ∧
      ((((getPending st ssrc).frames ++ [pcm]).map List.length).sum ≤ maxPendingSamples →
        fr = (getPending st ssrc).frames ++ [pcm]) := by
  have htot : (getPending st ssrc).totalSamples + pcm.length =
      (((getPending st ssrc).frames ++ [pcm]).map List.length).sum := by
    rw [pendingInv] at hinv
    simp [hinv]
  obtain ⟨h1, h2, h3, h4⟩ :=
    evictOldest_spec ((getPending st ssrc).frames ++ [pcm])
      ((getPending st ssrc).totalSamples + pcm.length) htot
  refine ⟨(evictOldest ((getPending st ssrc).frames ++ [pcm])
      ((getPending st ssrc).totalSamples + pcm.length)).1,
    (evictOldest ((getPending st ssrc).frames ++ [pcm])
      ((getPending st ssrc).totalSamples + pcm.length)).2,
    rfl, ?_, h1, h2, h3, ?_⟩
  · show getPending (alset ssrc _ st) ssrc = _
    rw [getPending, alget_alset_self]
    rfl
  · intro hle
    have := h4 (by omega)
    rw [this]

/-- Applied over a whole arrival sequence, the pending stream keeps its
invariant, its frames form a suffix of the arrivals, and nothing is
dropped when the whole sequence fits in the cap. -/
theorem addPendingFold_spec (ssrc : Nat) (pcms : List (List Int)) :
    ∀ st, pendingInv (getPending st ssrc) →
      pendingInv (getPending (addPendingFold st ssrc pcms) ssrc) ∧
      (getPending (addPendingFold st ssrc pcms) ssrc).frames <:+
        ((getPending st ssrc).frames ++ pcms) ∧
      ((((getPending st ssrc).frames ++ pcms).map List.length).sum ≤ maxPendingSamples →
        (getPending (addPendingFold st ssrc pcms) ssrc).frames =
          (getPending st ssrc).frames ++ pcms) := by
  induction pcms with
  | nil =>
    intro st h
    refine ⟨h, ?_, fun _ => ?_⟩
    · simp only [addPendingFold, List.foldl_nil, List.append_nil]
      exact List.suffix_refl _
    · simp only [addPendingFold, List.foldl_nil, List.append_nil]
  | cons pcm rest ih =>
    intro st h
    obtain ⟨fr, tot, heq, hget, hsum, hcap, hsuf, hnodrop⟩ := c8_pending_cap st ssrc pcm h
    have hfold : addPendingFold st ssrc (pcm :: rest) =
        addPendingFold (addPendingFrame st ssrc pcm).1 ssrc rest := by
      simp [addPendingFold]
    have hinv1 : pendingInv (getPending (addPendingFrame st ssrc pcm).1 ssrc) := by
      rw [hget, pendingInv]
      exact hsum
    obtain ⟨ih1, ih2, ih3⟩ := ih (addPendingFrame st ssrc pcm).1 hinv1
    rw [hget] at ih2 ih3
    rw [hfold]
    refine ⟨ih1, ?_, ?_⟩
    · refine ih2.trans ?_
      have := suffix_append_right hsuf rest
      rw [List.append_assoc] at this
      simpa using this
    · intro hle
      have hle1 : (((getPending st ssrc).frames ++ [pcm]).map List.length).sum ≤
          maxPendingSamples := by
        simp only [List.map_append, List.sum_append, List.map_cons, List.sum_cons,
          List.map_nil, List.sum_nil] at hle ⊢
        omega
      have hfr : fr = (getPending st ssrc).frames ++ [pcm] := hnodrop hle1
      rw [hfr] at ih3
      rw [ih3 (by simpa [List.append_assoc] using hle)]
      simp

theorem alget_addPendingFold_some (ssrc : Nat) (pcms : List (List Int)) :
    ∀ st s0, alget ssrc st = some s0 →
      ∃ s, alget ssrc (addPendingFold st ssrc pcms) = some s := by
  induction pcms with
  | nil => intro st s0 h; exact ⟨s0, h⟩
  | cons pcm rest ih =>
    intro st s0 h
    have hfold : addPendingFold st ssrc (pcm :: rest) =
        addPendingFold (addPendingFrame st ssrc pcm).1 ssrc rest := by
      simp [addPendingFold]
    rw [hfold]
    exact ih (addPendingFrame st ssrc pcm).1 _ (alget_alset_self ssrc _ st)

/-- From a fresh (absent or empty) segmenter buffer, replaying a nonempty
sequence of nonempty frames leaves a buffer holding their concatenation. -/
theorem addSamplesFold_fresh (st : SegState) (uid : String) (x : List Int)
    (rest : List (List Int)) (hnone : alget uid st.buffers = none)
    (hall : ∀ xs ∈ x :: rest, xs ≠ []) :
    alget uid (addSamplesFold st uid (x :: rest)).buffers =
      some ⟨x ++ rest.flatten, st.nextAlloc, 0 + rest.length⟩ := by
  have hxne : x ≠ [] := hall x (by simp)
  have hstep : addSamples st uid x =
      ⟨alset uid ⟨x, st.nextAlloc, 0⟩ st.buffers, st.nextAlloc + 1⟩ := by
    simp [addSamples, hxne, hnone]
  have hbuf1 : alget uid (addSamples st uid x).buffers = some ⟨x, st.nextAlloc, 0⟩ := by
    rw [hstep]
    exact alget_alset_self uid _ st.buffers
  have hfold := addSamplesFold_existing uid rest (addSamples st uid x)
    ⟨x, st.nextAlloc, 0⟩ hbuf1 (fun xs hxs => hall xs (List.mem_cons_of_mem _ hxs))
  have hfoldeq : addSamplesFold st uid (x :: rest) =
      addSamplesFold (addSamples st uid x) uid rest := by
    simp [addSamplesFold]
  rw [hfoldeq]
  exact hfold.1

/-- C4: frames buffered for an unresolved source and drained on a
successful binding are delivered to the segmenter exactly as buffered:
the delivered list is the buffered list, it is a suffix of the arrival
sequence (order preserved, no reordering), it is the whole arrival
sequence whenever the total fits the cap (no drops), the pending entry is
destroyed, and the segmenter's buffer afterwards holds the concatenation
of the delivered frames in order. -/
theorem c4_pending_replay_order (pst : List (Nat × PendingStream)) (ssrc : Nat)
    (pcms : List (List Int)) (seg : SegState) (uid : String)
    (hall : ∀ f ∈ pcms, f ≠ []) (hne : pcms ≠ [])
    (hfresh : alget ssrc pst = none) (hseg : alget uid seg.buffers = none) :
    ∃ fr,
      (getPending (addPendingFold pst ssrc pcms) ssrc).frames = fr ∧
      (awaitMappingSuccess (addPendingFold pst ssrc pcms) ssrc seg uid).2.2 = fr ∧
      fr <:+ pcms ∧
      ((pcms.map List.length).sum ≤ maxPendingSamples → fr = pcms) ∧
      alget ssrc (awaitMappingSuccess (addPendingFold pst ssrc pcms) ssrc seg uid).1 =
        none ∧
      (fr ≠ [] →
        ∃ buf, alget uid
            ((awaitMappingSuccess (addPendingFold pst ssrc pcms) ssrc seg uid).2.1).buffers =
          some buf ∧ buf.samples = fr.flatten) := by
  have hinv0 : pendingInv (getPending pst ssrc) := by
    rw [getPending, hfresh, pendingInv]
    rfl
  obtain ⟨hinvF, hsufF, hnodropF⟩ := addPendingFold_spec ssrc pcms pst hinv0
  have hget0 : getPending pst ssrc = ⟨[], 0, false⟩ := by
    rw [getPending, hfresh]
    rfl
  rw [hget0] at hsufF hnodropF
  simp only [List.nil_append] at hsufF hnodropF
  obtain ⟨x, rest, hx⟩ : ∃ x rest, pcms = x :: rest := by
    cases pcms with
    | nil => exact absurd rfl hne
    | cons x rest => exact ⟨x, rest, rfl⟩
  obtain ⟨s, hs⟩ := alget_addPendingFold_some ssrc rest
    (addPendingFrame pst ssrc x).1 _ (alget_alset_self ssrc _ pst)
  have hsF : alget ssrc (addPendingFold pst ssrc pcms) = some s := by
    rw [hx]
    rw [show addPendingFold pst ssrc (x :: rest) =
      addPendingFold (addPendingFrame pst ssrc x).1 ssrc rest by simp [addPendingFold]]
    exact hs
  have hgetF : getPending (addPendingFold pst ssrc pcms) ssrc = s := by
    rw [getPending, hsF]
    rfl
  have hdrain : drainPending (addPendingFold pst ssrc pcms) ssrc =
      (aldel ssrc (addPendingFold pst ssrc pcms), s.frames) := by
    rw [drainPending, hsF]
  refine ⟨s.frames, by rw [hgetF], ?_, by rw [hgetF] at hsufF; exact hsufF,
    ?_, ?_, ?_⟩
  · show (drainPending (addPendingFold pst ssrc pcms) ssrc).2 = s.frames
    rw [hdrain]
  · intro hle
    rw [hgetF] at hnodropF
    exact hnodropF hle
  · show alget ssrc (drainPending (addPendingFold pst ssrc pcms) ssrc).1 = none
    rw [hdrain]
    exact alget_aldel_self ssrc _
  · intro hfne
    obtain ⟨y, ys, hy⟩ : ∃ y ys, s.frames = y :: ys := by
      cases hsf : s.frames with
      | nil => exact absurd hsf hfne
      | cons y ys => exact ⟨y, ys, rfl⟩
    have hallF : ∀ f ∈ s.frames, f ≠ [] := by
      intro f hf
      rw [hgetF] at hsufF
      exact hall f (hsufF.sublist.subset hf)
    refine ⟨⟨y ++ ys.flatten, seg.nextAlloc, 0 + ys.length⟩, ?_, by simp [hy]⟩
    show alget uid ((drainPending (addPendingFold pst ssrc pcms) ssrc).2.foldl
      (fun s f => addSamples s uid f) seg).buffers = _
    rw [hdrain]
    simp only
    rw [hy]
    exact addSamplesFold_fresh seg uid y ys hseg (by rw [← hy]; exact hallF)

/-- Witness for C8: first insertion for a fresh SSRC. -/
theorem c8_witness :
    ∃ fr tot,
      (addPendingFrame [] 1 [7]).1 = alset 1 ⟨fr, tot, true⟩ [] ∧
      getPending (addPendingFrame [] 1 [7]).1 1 = ⟨fr, tot, true⟩ ∧
      tot = (fr.map List.length).sum ∧
      tot ≤ maxPendingSamples ∧
      fr <:+ (getPending [] 1).frames ++ [[7]] ∧
      ((((getPending [] 1).frames ++ [[7]]).map List.length).sum ≤ maxPendingSamples →
        fr = (getPending [] 1).frames ++ [[7]]) :=
  c8_pending_cap [] 1 [7] rfl

/-- Witness for C4: two frames buffered for SSRC 1, bound to user `u`. -/
theorem c4_witness :
    ∃ fr,
      (getPending (addPendingFold [] 1 [[3], [4]]) 1).frames = fr ∧
      (awaitMappingSuccess (addPendingFold [] 1 [[3], [4]]) 1 ⟨[], 0⟩ "u").2.2 = fr ∧
      fr <:+ [[3], [4]] ∧
      ((([[3], [4]] : List (List Int)).map List.length).sum ≤ maxPendingSamples →
        fr = [[3], [4]]) ∧
      alget 1 (awaitMappingSuccess (addPendingFold [] 1 [[3], [4]]) 1 ⟨[], 0⟩ "u").1 =
        none ∧
      (fr ≠ [] →
        ∃ buf, alget "u"
            ((awaitMappingSuccess (addPendingFold [] 1 [[3], [4]]) 1 ⟨[], 0⟩ "u").2.1).buffers =
          some buf ∧ buf.samples = fr.flatten) :=
  c4_pending_replay_order [] 1 [[3], [4]] ⟨[], 0⟩ "u" (by simp) (by simp) rfl rfl

theorem lastSuccess_append (a b : List SinkEvent) :
    lastSuccess (a ++ b) =
      (b.foldl
        (fun acc e =>
          match e with
          | .sent msgId c => some (msgId, c)
          | .edited msgId c => some (msgId, c)
          | _ => acc)
        (lastSuccess a)) := by
  simp [lastSuccess, List.foldl_append]

/-- C1: for every chunk processed by `AddLine`: with no open message,
exactly one send is issued carrying just the chunk and no edit; with an
open message whose newline-joined content stays within the limit, no send
and exactly one edit carrying the joined content; and the recorded content
invariant (state content equals the last successful send/edit) is
preserved by the step. -/
theorem c1_processChunk_send_edit_content
    (sink : Sink) (st : AggState) (chunk : GoStr) (hist : List SinkEvent)
    (hinv : contentInv hist st) :
    (st.current = none →
      (∃ msgId, (processChunk sink st chunk).2.1 = [.sent msgId chunk]) ∨
        (processChunk sink st chunk).2.1 = [.sendFailed chunk]) ∧
    (∀ m, st.current = some m → wouldExceedLimit (some m) chunk = false →
      (processChunk sink st chunk).2.1 = [.edited m.id (joinContent m.content chunk)] ∨
        (processChunk sink st chunk).2.1 =
          [.editFailed m.id (joinContent m.content chunk)]) ∧
    contentInv (hist ++ (processChunk sink st chunk).2.1) (processChunk sink st chunk).1 := by
  refine ⟨?_, ?_, ?_⟩
  · intro h
    simp only [processChunk, h, startNewMessage]
    cases hs : sink.send chunk with
    | none => right; rfl
    | some msgId => left; exact ⟨msgId, rfl⟩
  · intro m hm hex
    simp only [processChunk, hm, hex, Bool.false_eq_true, if_false, appendToCurrent]
    cases he : sink.edit m.id (joinContent m.content chunk) with
    | false => right; rfl
    | true => left; rfl
  · cases hm : st.current with
    | none =>
      simp only [processChunk, hm, startNewMessage]
      cases hs : sink.send chunk with
      | none =>
        intro m' hm'
        rw [hm] at hm'
        cases hm'
      | some msgId =>
        intro m' hm'
        simp only at hm'
        cases hm'
        simp [lastSuccess_append]
    | some m =>
      simp only [processChunk, hm]
      by_cases hex : wouldExceedLimit (some m) chunk
      · simp only [hex, if_true, startNewMessage, finalizeCurrent]
        cases hs : sink.send chunk with
        | none =>
          intro m' hm'
          cases hm'
        | some msgId =>
          intro m' hm'
          simp only at hm'
          cases hm'
          simp [lastSuccess_append]
      · simp only [hex, if_false, appendToCurrent]
        cases he : sink.edit m.id (joinContent m.content chunk) with
        | false =>
          simp only [Bool.false_eq_true, if_false]
          intro m' hm'
          have := hinv m' hm'
          simp [lastSuccess_append, this]
        | true =>
          simp only [if_true]
          intro m' hm'
          have hm2 : (⟨m.id, m.lines ++ [chunk], joinContent m.content chunk, m.token⟩ : MsgState) = m' := by
            simpa using hm'
          subst hm2
          simp [lastSuccess_append]

/-- Witness for C1 at a concrete sink, state and chunk. -/
theorem c1_witness :
    ((⟨none, 0⟩ : AggState).current = none →
      (∃ msgId,
          (processChunk ⟨fun _ => some "m1", fun _ _ => true⟩ ⟨none, 0⟩ [65]).2.1 =
            [.sent msgId [65]]) ∨
        (processChunk ⟨fun _ => some "m1", fun _ _ => true⟩ ⟨none, 0⟩ [65]).2.1 =
          [.sendFailed [65]]) ∧
    (∀ m, (⟨none, 0⟩ : AggState).current = some m →
      wouldExceedLimit (some m) [65] = false →
      (processChunk ⟨fun _ => some "m1", fun _ _ => true⟩ ⟨none, 0⟩ [65]).2.1 =
          [.edited m.id (joinContent m.content [65])] ∨
        (processChunk ⟨fun _ => some "m1", fun _ _ => true⟩ ⟨none, 0⟩ [65]).2.1 =
          [.editFailed m.id (joinContent m.content [65])]) ∧
    contentInv
      ([] ++ (processChunk ⟨fun _ => some "m1", fun _ _ => true⟩ ⟨none, 0⟩ [65]).2.1)
      (processChunk ⟨fun _ => some "m1", fun _ _ => true⟩ ⟨none, 0⟩ [65]).1 :=
  c1_processChunk_send_edit_content ⟨fun _ => some "m1", fun _ _ => true⟩ ⟨none, 0⟩ [65] []
    (by intro m h; simp at h)

/-- C3: if the sink's edit fails during an append, `AddLine` leaves the
aggregator state exactly as it was (same open message id, lines, content
and timer) and returns the error, so a later call retries against the
same prior state. -/
theorem c3_addLine_edit_failure_preserves_state
    (sink : Sink) (st : AggState) (m : MsgState) (line : GoStr)
    (htrim : trimSpace line = line) (hne : line ≠ [])
    (hlen : line.length ≤ maxDiscordMessageLength)
    (hcur : st.current = some m)
    (hfit : wouldExceedLimit (some m) line = false)
    (hfail : sink.edit m.id (joinContent m.content line) = false) :
    addLine sink st line = (st, [.editFailed m.id (joinContent m.content line)], true) := by
  simp only [addLine, htrim, if_neg hne, splitLine, if_pos hlen, processChunks,
    processChunk, hcur, hfit, Bool.false_eq_true, if_false, appendToCurrent, hfail]

/-- Witness for C3 at a concrete failing sink. -/
theorem c3_witness :
    addLine ⟨fun _ => none, fun _ _ => false⟩ ⟨some ⟨"m1", [[65]], [65], 0⟩, 1⟩ [66] =
      (⟨some ⟨"m1", [[65]], [65], 0⟩, 1⟩,
        [.editFailed "m1" (joinContent [65] [66])], true) :=
  c3_addLine_edit_failure_preserves_state ⟨fun _ => none, fun _ _ => false⟩
    ⟨some ⟨"m1", [[65]], [65], 0⟩, 1⟩ ⟨"m1", [[65]], [65], 0⟩ [66]
    (by decide) (by decide) (by decide) rfl (by decide) rfl

/-- C6: the window timer clears the open reference only when the open
message is still the one it was armed for; a stale token (one belonging
to a finalized or superseded message, hence below the allocation counter
or simply different) never clears a newer open message; and once the
window has elapsed and cleared the reference, the next `AddLine` issues a
send, never an edit. -/
theorem c6_fireWindowTimer_spec
    (sink : Sink) (st : AggState) (tok : Nat) (line : GoStr)
    (htrim : trimSpace line = line) (hne : line ≠ [])
    (hlen : line.length ≤ maxDiscordMessageLength) :
    (∀ m, st.current = some m → m.token = tok →
      fireWindowTimer st tok = ⟨none, st.nextAlloc⟩) ∧
    (∀ m, st.current = some m → m.token ≠ tok → fireWindowTimer st tok = st) ∧
    (∀ tok', tok' < st.nextAlloc → ∀ msgId, sink.send line = some msgId →
      ∀ m', (startNewMessage sink st line).1.current = some m' → m'.token ≠ tok') ∧
    (∀ m, st.current = some m → m.token = tok →
      (∀ e ∈ (addLine sink (fireWindowTimer st tok) line).2.1, e.isEdit = false) ∧
      ((∃ msgId, (addLine sink (fireWindowTimer st tok) line).2.1 = [.sent msgId line]) ∨
        (addLine sink (fireWindowTimer st tok) line).2.1 = [.sendFailed line])) := by
  refine ⟨?_, ?_, ?_, ?_⟩
  · intro m hm htok
    simp [fireWindowTimer, hm, htok]
  · intro m hm htok
    simp [fireWindowTimer, hm, htok]
  · intro tok' hlt msgId hs m' hm'
    simp only [startNewMessage, hs] at hm'
    cases hm'
    show st.nextAlloc ≠ tok'
    omega
  · intro m hm htok
    have hfired : fireWindowTimer st tok = ⟨none, st.nextAlloc⟩ := by
      simp [fireWindowTimer, hm, htok]
    rw [hfired]
    simp only [addLine, htrim, if_neg hne, splitLine, if_pos hlen, processChunks,
      processChunk, startNewMessage]
    cases hs : sink.send line with
    | none =>
      refine ⟨?_, Or.inr rfl⟩
      intro e he
      simp at he
      simp [he, SinkEvent.isEdit]
    | some msgId =>
      refine ⟨?_, Or.inl ⟨msgId, rfl⟩⟩
      intro e he
      simp at he
      simp [he, SinkEvent.isEdit]

/-- Witness for C6 at a concrete state with an armed timer token. -/
theorem c6_witness :
    (∀ m, (⟨some ⟨"m1", [[65]], [65], 0⟩, 1⟩ : AggState).current = some m → m.token = 0 →
      fireWindowTimer ⟨some ⟨"m1", [[65]], [65], 0⟩, 1⟩ 0 = ⟨none, 1⟩) ∧
    (∀ m, (⟨some ⟨"m1", [[65]], [65], 0⟩, 1⟩ : AggState).current = some m → m.token ≠ 0 →
      fireWindowTimer ⟨some ⟨"m1", [[65]], [65], 0⟩, 1⟩ 0 =
        ⟨some ⟨"m1", [[65]], [65], 0⟩, 1⟩) ∧
    (∀ tok', tok' < (⟨some ⟨"m1", [[65]], [65], 0⟩, 1⟩ : AggState).nextAlloc →
      ∀ msgId, (some "m2" : Option String) = some msgId →
      ∀ m', (startNewMessage ⟨fun _ => some "m2", fun _ _ => true⟩
        ⟨some ⟨"m1", [[65]], [65], 0⟩, 1⟩ [66]).1.current = some m' → m'.token ≠ tok') ∧
    (∀ m, (⟨some ⟨"m1", [[65]], [65], 0⟩, 1⟩ : AggState).current = some m → m.token = 0 →
      (∀ e ∈ (addLine ⟨fun _ => some "m2", fun _ _ => true⟩
          (fireWindowTimer ⟨some ⟨"m1", [[65]], [65], 0⟩, 1⟩ 0) [66]).2.1,
        e.isEdit = false) ∧
      ((∃ msgId,
          (addLine ⟨fun _ => some "m2", fun _ _ => true⟩
            (fireWindowTimer ⟨some ⟨"m1", [[65]], [65], 0⟩, 1⟩ 0) [66]).2.1 =
            [.sent msgId [66]]) ∨
        (addLine ⟨fun _ => some "m2", fun _ _ => true⟩
          (fireWindowTimer ⟨some ⟨"m1", [[65]], [65], 0⟩, 1⟩ 0) [66]).2.1 =
          [.sendFailed [66]])) :=
  c6_fireWindowTimer_spec ⟨fun _ => some "m2", fun _ _ => true⟩
    ⟨some ⟨"m1", [[65]], [65], 0⟩, 1⟩ 0 [66] (by decide) (by decide) (by decide)

theorem chunkRunes_join (l : GoStr) : (chunkRunes l).flatten = l := by
  induction l using chunkRunes.induct with
  | case1 => simp [chunkRunes]
  | case2 c rest ih =>
    rw [chunkRunes]
    simp [ih, List.take_append_drop]

theorem chunkRunes_ne_nil (c : Nat) (rest : GoStr) : chunkRunes (c :: rest) ≠ [] := by
  rw [chunkRunes]
  simp

theorem chunkRunes_mem_length (l : GoStr) :
    ∀ s ∈ chunkRunes l, s.length ≤ maxDiscordMessageLength := by
  induction l using chunkRunes.induct with
  | case1 => simp [chunkRunes]
  | case2 c rest ih =>
    rw [chunkRunes]
    intro s hs
    rcases List.mem_cons.mp hs with h | h
    · subst h
      simp [List.length_take]
    · exact ih s h

theorem chunkRunes_dropLast_length (l : GoStr) :
    ∀ s ∈ (chunkRunes l).dropLast, s.length = maxDiscordMessageLength := by
  induction l using chunkRunes.induct with
  | case1 => simp [chunkRunes]
  | case2 c rest ih =>
    rw [chunkRunes]
    by_cases hlen : (c :: rest).length ≤ maxDiscordMessageLength
    · have hdrop : (c :: rest).drop maxDiscordMessageLength = [] := by
        rw [List.drop_eq_nil_iff]
        exact hlen
      rw [hdrop]
      simp [chunkRunes]
    · have hdrop : (c :: rest).drop maxDiscordMessageLength ≠ [] := by
        rw [ne_eq, List.drop_eq_nil_iff]
        omega
      obtain ⟨d, ds, hds⟩ : ∃ d ds, (c :: rest).drop maxDiscordMessageLength = d :: ds :=
        List.exists_cons_of_ne_nil hdrop
      intro s hs
      rw [hds] at hs
      rw [List.dropLast_cons_of_ne_nil (chunkRunes_ne_nil d ds)] at hs
      rcases List.mem_cons.mp hs with h | h
      · subst h
        simp only [List.length_take]
        omega
      · rw [hds] at ih
        exact ih s h

theorem chunkRunes_count (l : GoStr) (h : l ≠ []) :
    (chunkRunes l).length =
      (l.length + (maxDiscordMessageLength - 1)) / maxDiscordMessageLength := by
  induction l using chunkRunes.induct with
  | case1 => exact absurd rfl h
  | case2 c rest ih =>
    rw [chunkRunes]
    by_cases hlen : (c :: rest).length ≤ maxDiscordMessageLength
    · have hdrop : (c :: rest).drop maxDiscordMessageLength = [] := by
        rw [List.drop_eq_nil_iff]
        exact hlen
      rw [hdrop]
      simp only [chunkRunes, List.length_cons, List.length_nil]
      have h1 : 1 ≤ (c :: rest).length := by simp
      simp only [maxDiscordMessageLength, List.length_cons] at hlen h1 ⊢
      omega
    · have hdrop : (c :: rest).drop maxDiscordMessageLength ≠ [] := by
        rw [ne_eq, List.drop_eq_nil_iff]
        omega
      rw [List.length_cons, ih hdrop]
      simp only [List.length_drop]
      simp only [maxDiscordMessageLength, not_le, List.length_cons] at hlen ⊢
      omega

/-- Every sink call issued while processing chunks of bounded rune length
carries content of bounded rune length: a fresh message holds exactly the
chunk, and an edit is only issued when the joined byte length fits, which
bounds the rune length as well. -/
theorem processChunk_event_content_le (sink : Sink) (st : AggState) (chunk : GoStr)
    (hc : chunk.length ≤ maxDiscordMessageLength) :
    ∀ e ∈ (processChunk sink st chunk).2.1, e.content.length ≤ maxDiscordMessageLength := by
  have hsend : ∀ st', ∀ e ∈ (startNewMessage sink st' chunk).2.1,
      e.content.length ≤ maxDiscordMessageLength := by
    intro st' e he
    simp only [startNewMessage] at he
    cases hs : sink.send chunk with
    | none =>
      rw [hs] at he
      simp at he
      simp [he, SinkEvent.content, hc]
    | some msgId =>
      rw [hs] at he
      simp at he
      simp [he, SinkEvent.content, hc]
  simp only [processChunk]
  cases hm : st.current with
  | none => exact hsend st
  | some m =>
    by_cases hex : wouldExceedLimit (some m) chunk
    · simp only [hex, if_true]
      exact hsend (finalizeCurrent st)
    · simp only [hex, if_false, appendToCurrent]
      have hjoin : (joinContent m.content chunk).length ≤ maxDiscordMessageLength := by
        by_cases hnil : m.content = []
        · simpa [joinContent, hnil] using hc
        · have hex' : wouldExceedLimit (some m) chunk = false := by simpa using hex
          simp only [wouldExceedLimit, if_neg hnil, gt_iff_lt, decide_eq_false_iff_not,
            not_lt] at hex'
          simp only [joinContent, if_neg hnil, List.length_append, List.length_cons]
          have h1 := length_le_byteLen m.content
          have h2 := length_le_byteLen chunk
          omega
      cases he : sink.edit m.id (joinContent m.content chunk) with
      | false =>
        intro e hee
        simp at hee
        simp [hee, SinkEvent.content, hjoin]
      | true =>
        intro e hee
        simp at hee
        simp [hee, SinkEvent.content, hjoin]

theorem processChunks_event_content_le (sink : Sink) (cs : List GoStr)
    (h : ∀ c ∈ cs, c.length ≤ maxDiscordMessageLength) :
    ∀ st, ∀ e ∈ (processChunks sink st cs).2.1,
      e.content.length ≤ maxDiscordMessageLength := by
  induction cs with
  | nil => intro st e he; simp [processChunks] at he
  | cons c rest ih =>
    intro st e he
    simp only [processChunks] at he
    rcases hpc : processChunk sink st c with ⟨st1, evs1, err1⟩
    rw [hpc] at he
    have hc1 : ∀ e ∈ evs1, e.content.length ≤ maxDiscordMessageLength := by
      intro e' he'
      have := processChunk_event_content_le sink st c (h c (by simp)) e'
      rw [hpc] at this
      exact this he'
    cases err1 with
    | true =>
      simp only at he
      exact hc1 e he
    | false =>
      simp only at he
      rcases hpcs : processChunks sink st1 rest with ⟨st2, evs2, err2⟩
      rw [hpcs] at he
      simp only [List.mem_append] at he
      rcases he with he | he
      · exact hc1 e he
      · have := ih (fun c' hc' => h c' (by simp [hc'])) st1 e
        rw [hpcs] at this
        exact this he

/-- C9: a trimmed line longer than the maximum size is split into exactly
`⌈len/max⌉` chunks whose in-order concatenation is the line, every chunk
at most the maximum length with all but the last cut at exactly the hard
boundary; `AddLine` routes exactly these chunks through the open/append
decision in order, and no sink call it issues carries content longer than
the maximum size (in runes). -/
theorem c9_splitLine_spec (sink : Sink) (st : AggState) (line : GoStr)
    (htrim : trimSpace line = line) (hlong : maxDiscordMessageLength < line.length) :
    (splitLine line).length =
      (line.length + (maxDiscordMessageLength - 1)) / maxDiscordMessageLength ∧
    (splitLine line).flatten = line ∧
    (∀ c ∈ splitLine line, c.length ≤ maxDiscordMessageLength) ∧
    (∀ c ∈ (splitLine line).dropLast, c.length = maxDiscordMessageLength) ∧
    addLine sink st line = processChunks sink st (splitLine line) ∧
    (∀ e ∈ (addLine sink st line).2.1, e.content.length ≤ maxDiscordMessageLength) := by
  have hne : line ≠ [] := by
    intro h
    rw [h] at hlong
    simp at hlong
  have hsplit : splitLine line = chunkRunes line := by
    rw [splitLine, if_neg (not_le.mpr hlong)]
  have haddLine : addLine sink st line = processChunks sink st (splitLine line) := by
    simp only [addLine, htrim, if_neg hne]
  refine ⟨?_, ?_, ?_, ?_, haddLine, ?_⟩
  · rw [hsplit]
    exact chunkRunes_count line hne
  · rw [hsplit]
    exact chunkRunes_join line
  · rw [hsplit]
    exact chunkRunes_mem_length line
  · rw [hsplit]
    exact chunkRunes_dropLast_length line
  · rw [haddLine]
    exact fun e he =>
      processChunks_event_content_le sink (splitLine line)
        (by rw [hsplit]; exact chunkRunes_mem_length line) st e he

/-- Witness for C9 on a 2001-rune line. -/
theorem c9_witness :
    (splitLine (List.replicate 2001 65)).length =
      ((List.replicate 2001 65 : GoStr).length + (maxDiscordMessageLength - 1)) /
        maxDiscordMessageLength ∧
    (splitLine (List.replicate 2001 65)).flatten = List.replicate 2001 65 ∧
    (∀ c ∈ splitLine (List.replicate 2001 65), c.length ≤ maxDiscordMessageLength) ∧
    (∀ c ∈ (splitLine (List.replicate 2001 65)).dropLast,
      c.length = maxDiscordMessageLength) ∧
    addLine ⟨fun _ => some "m1", fun _ _ => true⟩ ⟨none, 0⟩ (List.replicate 2001 65) =
      processChunks ⟨fun _ => some "m1", fun _ _ => true⟩ ⟨none, 0⟩
        (splitLine (List.replicate 2001 65)) ∧
    (∀ e ∈ (addLine ⟨fun _ => some "m1", fun _ _ => true⟩ ⟨none, 0⟩
        (List.replicate 2001 65)).2.1,
      e.content.length ≤ maxDiscordMessageLength) :=
  c9_splitLine_spec ⟨fun _ => some "m1", fun _ _ => true⟩ ⟨none, 0⟩
    (List.replicate 2001 65)
    (by
      have : ∀ n, trimSpace (List.replicate n 65) = List.replicate n 65 := by
        intro n
        have hdw : ∀ m, (List.replicate m 65).dropWhile goIsSpace = List.replicate m 65 := by
          intro m
          cases m with
          | zero => simp
          | succ k => simp [List.replicate_succ, List.dropWhile_cons, goIsSpace]
        have hrev : (List.replicate n 65).reverse = List.replicate n 65 := by
          simp [List.reverse_replicate]
        simp [trimSpace, hdw, hrev]
      exact this 2001)
    (by rw [List.length_replicate]; norm_num [maxDiscordMessageLength])

theorem not_mem_erase_of_nodup {α : Type} [DecidableEq α] (a : α) :
    ∀ l : List α, l.Nodup → a ∉ l.erase a := by
  intro l
  induction l with
  | nil => intro _ h; simp at h
  | cons b bs ih =>
    intro hnd hmem
    rw [List.erase_cons] at hmem
    by_cases hba : b = a
    · rw [if_pos (by simp [hba])] at hmem
      subst hba
      exact (List.nodup_cons.mp hnd).1 hmem
    · rw [if_neg (by simp [hba])] at hmem
      rcases List.mem_cons.mp hmem with h | h
      · exact hba h.symm
      · exact ih (List.nodup_cons.mp hnd).2 h

/-- C5: a bind with a non-empty identity records the binding, notifies
every waiter registered for the SSRC exactly once each (the notification
list is exactly the wait list, in order, paired with the identity), and
empties the wait list; a bind with an empty identity changes nothing; a
timed-out waiter is removed from the wait list (and, when tokens are
distinct, is no longer present) and the wait returns not-found. -/
theorem c5_resolver_bind_wait (r : Resolver) (ssrc tok : Nat) (uid : String) :
    (uid ≠ "" →
      resolverResolve (resolverSet r ssrc uid).1 ssrc = some uid ∧
      (resolverSet r ssrc uid).2 = (waitersFor r ssrc).map (fun t => (t, uid)) ∧
      (∀ t ∈ waitersFor r ssrc, (t, uid) ∈ (resolverSet r ssrc uid).2) ∧
      ((waitersFor r ssrc).Nodup → (resolverSet r ssrc uid).2.Nodup) ∧
      waitersFor (resolverSet r ssrc uid).1 ssrc = []) ∧
    (uid = "" → resolverSet r ssrc uid = (r, [])) ∧
    ((waitTimeout r ssrc tok).2 = ("", false) ∧
      waitersFor (waitTimeout r ssrc tok).1 ssrc = (waitersFor r ssrc).erase tok ∧
      ((waitersFor r ssrc).Nodup → tok ∉ waitersFor (waitTimeout r ssrc tok).1 ssrc)) := by
  have hset1 : uid ≠ "" → resolverSet r ssrc uid =
      (⟨alset ssrc uid r.mapping, aldel ssrc r.waiters⟩,
        (waitersFor r ssrc).map (fun t => (t, uid))) := by
    intro hne
    rw [resolverSet, if_neg hne]
  refine ⟨?_, ?_, ?_⟩
  · intro hne
    rw [hset1 hne]
    refine ⟨?_, rfl, ?_, ?_, ?_⟩
    · show alget ssrc (alset ssrc uid r.mapping) = some uid
      exact alget_alset_self ssrc uid r.mapping
    · intro t ht
      exact List.mem_map_of_mem _ ht
    · intro hnd
      exact List.Nodup.map (fun a b hab => congrArg Prod.fst hab) hnd
    · show (alget ssrc (aldel ssrc r.waiters)).getD [] = []
      rw [alget_aldel_self]
      rfl
  · intro he
    rw [resolverSet, if_pos he]
  · cases hws : alget ssrc r.waiters with
    | none =>
      have hwt : waitTimeout r ssrc tok = (r, ("", false)) := by
        simp only [waitTimeout, hws]
      have hwF : waitersFor r ssrc = [] := by
        simp [waitersFor, hws]
      rw [hwt, hwF]
      exact ⟨rfl, by simp [hwF], by simp [hwF]⟩
    | some ws =>
      have hwF : waitersFor r ssrc = ws := by
        simp [waitersFor, hws]
      by_cases hnil : ws.erase tok = []
      · have hwt : waitTimeout r ssrc tok =
            (⟨r.mapping, aldel ssrc r.waiters⟩, ("", false)) := by
          simp only [waitTimeout, hws, if_pos hnil]
        rw [hwt, hwF]
        refine ⟨rfl, ?_, ?_⟩
        · show (alget ssrc (aldel ssrc r.waiters)).getD [] = ws.erase tok
          rw [alget_aldel_self, hnil]
          rfl
        · intro hnd
          show tok ∉ (alget ssrc (aldel ssrc r.waiters)).getD []
          rw [alget_aldel_self]
          simp
      · have hwt : waitTimeout r ssrc tok =
            (⟨r.mapping, alset ssrc (ws.erase tok) r.waiters⟩, ("", false)) := by
          simp only [waitTimeout, hws, if_neg hnil]
        rw [hwt, hwF]
        refine ⟨rfl, ?_, ?_⟩
        · show (alget ssrc (alset ssrc (ws.erase tok) r.waiters)).getD [] = ws.erase tok
          rw [alget_alset_self]
          rfl
        · intro hnd
          show tok ∉ (alget ssrc (alset ssrc (ws.erase tok) r.waiters)).getD []
          rw [alget_alset_self]
          show tok ∉ ws.erase tok
          exact not_mem_erase_of_nodup tok ws hnd

/-- Witness for C5 at a concrete resolver with two waiters on SSRC 1. -/
theorem c5_witness :
    (("alice" : String) ≠ "" →
      resolverResolve (resolverSet ⟨[], [(1, [5, 6])]⟩ 1 "alice").1 1 = some "alice" ∧
      (resolverSet ⟨[], [(1, [5, 6])]⟩ 1 "alice").2 =
        (waitersFor ⟨[], [(1, [5, 6])]⟩ 1).map (fun t => (t, "alice")) ∧
      (∀ t ∈ waitersFor ⟨[], [(1, [5, 6])]⟩ 1,
        (t, "alice") ∈ (resolverSet ⟨[], [(1, [5, 6])]⟩ 1 "alice").2) ∧
      ((waitersFor ⟨[], [(1, [5, 6])]⟩ 1).Nodup →
        (resolverSet ⟨[], [(1, [5, 6])]⟩ 1 "alice").2.Nodup) ∧
      waitersFor (resolverSet ⟨[], [(1, [5, 6])]⟩ 1 "alice").1 1 = []) ∧
    (("alice" : String) = "" →
      resolverSet ⟨[], [(1, [5, 6])]⟩ 1 "alice" = (⟨[], [(1, [5, 6])]⟩, [])) ∧
    ((waitTimeout ⟨[], [(1, [5, 6])]⟩ 1 5).2 = ("", false) ∧
      waitersFor (waitTimeout ⟨[], [(1, [5, 6])]⟩ 1 5).1 1 =
        (waitersFor ⟨[], [(1, [5, 6])]⟩ 1).erase 5 ∧
      ((waitersFor ⟨[], [(1, [5, 6])]⟩ 1).Nodup →
        5 ∉ waitersFor (waitTimeout ⟨[], [(1, [5, 6])]⟩ 1 5).1 1)) :=
  c5_resolver_bind_wait ⟨[], [(1, [5, 6])]⟩ 1 5 "alice"

/-- C10: a flushed segment whose duration is below 400 milliseconds
(sample count over 48000 samples/second, mono) or whose mean absolute
amplitude is below 900 is silently dropped: `shouldSendSegment` rejects
it and `consumeSegment` performs no external action — no WAV write, no
transcription request, no aggregator line. -/
theorem c10_segment_filter_drops (samples : List Int) (transcribed : Option GoStr)
    (name : GoStr)
    (hdrop : 1000 * samples.length < 400 * 48000 ∨
      sumAbs samples < 900 * samples.length) :
    shouldSendSegment samples = false ∧
    consumeSegmentEffects transcribed name samples = [] := by
  have hss : shouldSendSegment samples = false := by
    rcases Nat.eq_zero_or_pos samples.length with h0 | hpos
    · simp [shouldSendSegment, h0]
    · rcases hdrop with hd | ha
      · have hdur : segmentDurationNs samples.length < 400000000 := by
          simp only [segmentDurationNs, Nat.mul_one]
          omega
        simp [shouldSendSegment, Nat.pos_iff_ne_zero.mp hpos, hdur]
      · by_cases hdur : segmentDurationNs samples.length < 400000000
        · simp [shouldSendSegment, Nat.pos_iff_ne_zero.mp hpos, hdur]
        · have hamp : ¬(900 ≤ sumAbs samples / samples.length) :=
            not_le.mpr ((Nat.div_lt_iff_lt_mul hpos).mpr ha)
          simp [shouldSendSegment, Nat.pos_iff_ne_zero.mp hpos, hdur, hamp]
  refine ⟨hss, ?_⟩
  by_cases hemp : samples = []
  · simp [consumeSegmentEffects, hemp]
  · simp [consumeSegmentEffects, hemp, hss]

/-- Witness for C10 on a three-sample (62.5µs) segment. -/
theorem c10_witness :
    shouldSendSegment [1, 2, 3] = false ∧
    consumeSegmentEffects none [] [1, 2, 3] = [] :=
  c10_segment_filter_drops [1, 2, 3] none [] (Or.inl (by decide))

end VoiceBot
